import Mathlib

/-!
Shallow embedding of the Eris liquid-staking hub contract
(`contracts/hub/src/math.rs`, `contracts/hub/src/execute.rs`,
`contracts/hub/src/contract.rs`) together with proofs about the spec claims.

Machine integers (`Uint128` / `u128`) are embedded as `Nat`.  Operations of
the source that can abort the transaction are embedded explicitly:
checked/panicking subtraction as `checkedSub : Nat → Nat → Option Nat`,
`Uint128::multiply_ratio` (full-width multiplication, floor division,
panic on zero divisor or on a quotient that does not fit `u128`) as
`fullMulDiv`, and division by a zero count as an explicit `none` guard.
-/

namespace ErisHub

/-- Embeds `crate::types::Delegation` as used throughout `math.rs`:
a validator identity together with a delegated `u128` amount. -/
structure Delegation where
  validator : String
  amount : Nat
deriving DecidableEq, Repr

/-- Embeds `crate::types::Undelegation` (validator, amount). -/
structure Undelegation where
  validator : String
  amount : Nat
deriving DecidableEq, Repr

/-- Embeds `crate::types::Redelegation` (source validator, destination
validator, amount). -/
structure Redelegation where
  src : String
  dst : String
  amount : Nat
deriving DecidableEq, Repr

/-- Embeds `eris::hub::Batch` (hub.rs lines 245-256). -/
structure Batch where
  id : Nat
  reconciled : Bool
  total_shares : Nat
  utoken_unclaimed : Nat
  est_unbond_end_time : Nat
deriving DecidableEq, Repr

/-- Embeds `eris::hub::PendingBatch` (hub.rs lines 219-226). -/
structure PendingBatch where
  id : Nat
  ustake_to_burn : Nat
  est_unbond_start_time : Nat
deriving DecidableEq, Repr

/-- Embeds `eris::hub::UnbondRequest` (hub.rs lines 259-266). -/
structure UnbondRequest where
  id : Nat
  user : String
  shares : Nat
deriving DecidableEq, Repr

/-- Embeds `eris::hub::StakeToken` (hub.rs lines 229-234). -/
structure StakeToken where
  denom : String
  total_supply : Nat
deriving DecidableEq, Repr

/-- `u128` bound: all `Uint128` values of the source live below this. -/
def U128 : Nat := 2 ^ 128

/-- Checked subtraction of `u128` quantities: `a - b`, aborting (`none`) on
underflow, exactly as `Uint128` subtraction / `u128` subtraction with
overflow checks does in the source. -/
def checkedSub (a b : Nat) : Option Nat :=
  if b ≤ a then some (a - b) else none

/-- Embeds `Uint128::multiply_ratio a num den`: the product `a * num` is
formed in full width (256 bit in the source, unbounded `Nat` here, which
agrees below `2 ^ 256`), floor-divided by `den`; the source panics when
`den = 0` or when the quotient does not fit `u128`. -/
def fullMulDiv (a num den : Nat) : Option Nat :=
  if den = 0 then none
  else if a * num / den < U128 then some (a * num / den) else none

/-- Sum of the `amount` fields of a delegation list, as
`current_delegations.iter().map(|d| d.amount).sum()` in `math.rs`. -/
def sumAmounts (ds : List Delegation) : Nat :=
  (ds.map (·.amount)).sum

/-- Embeds `compute_mint_amount` (math.rs lines 16-27). -/
def compute_mint_amount (ustake_supply utoken_to_bond : Nat)
    (current_delegations : List Delegation) : Option Nat :=
  let utoken_bonded := sumAmounts current_delegations
  if utoken_bonded = 0 then some utoken_to_bond
  else fullMulDiv ustake_supply utoken_to_bond utoken_bonded

/-- Embeds `compute_unbond_amount` (math.rs lines 33-40). -/
def compute_unbond_amount (ustake_supply ustake_to_burn : Nat)
    (current_delegations : List Delegation) : Option Nat :=
  fullMulDiv (sumAmounts current_delegations) ustake_to_burn ustake_supply

/-- The per-position even share `utoken_per_validator + remainder_for_validator`
with `remainder_for_validator = if (i + 1) <= remainder { 1 } else { 0 }`,
the pattern repeated in `compute_undelegations`,
`compute_redelegations_for_removal`, `compute_redelegations_for_rebalancing`
and `reconcile_batches` in math.rs. -/
def evenShare (per rem i : Nat) : Nat :=
  per + (if i + 1 ≤ rem then 1 else 0)

/-- The `for (i, d) in current_delegations.iter().enumerate()` loop body of
`compute_undelegations` (math.rs lines 63-89): position `i`, running
`utoken_available`, emitting only positive undelegations and stopping as
soon as `utoken_available` reaches zero. -/
def undelLoop (per rem : Nat) : Nat → Nat → List Delegation → List Undelegation
  | _, _, [] => []
  | i, avail, d :: rest =>
    let forVal := evenShare per rem i
    let raw := if d.amount < forVal then 0 else d.amount - forVal
    let toUndel := min raw avail
    let entry : List Undelegation :=
      if 0 < toUndel then [⟨d.validator, toUndel⟩] else []
    if avail - toUndel = 0 then entry
    else entry ++ undelLoop per rem (i + 1) (avail - toUndel) rest

/-- Embeds `compute_undelegations` (math.rs lines 52-92).  The source
divides by `validator_count` (panic when the list is empty) and computes
`utoken_staked - utoken_to_unbond` with checked `u128` subtraction. -/
def compute_undelegations (utoken_to_unbond : Nat)
    (current_delegations : List Delegation) : Option (List Undelegation) :=
  if current_delegations.length = 0 then none
  else
    (checkedSub (sumAmounts current_delegations) utoken_to_unbond).map
      fun toDistribute =>
        undelLoop (toDistribute / current_delegations.length)
          (toDistribute % current_delegations.length)
          0 utoken_to_unbond current_delegations

/-- The first `for (i, d)` loop of `compute_redelegations_for_rebalancing`
(math.rs lines 163-184): partition the delegations into the surplus
(`src_delegations`) and deficit (`dst_delegations`) lists, in list order,
comparing each amount with its even-share target. -/
def buildSrcDst (per rem : Nat) : Nat → List Delegation → List Delegation × List Delegation
  | _, [] => ([], [])
  | i, d :: rest =>
    let p := buildSrcDst per rem (i + 1) rest
    let target := evenShare per rem i
    if target < d.amount then (⟨d.validator, d.amount - target⟩ :: p.1, p.2)
    else if d.amount < target then (p.1, ⟨d.validator, target - d.amount⟩ :: p.2)
    else p

/-- The greedy `while` loop of `compute_redelegations_for_rebalancing`
(math.rs lines 186-209): repeatedly move `min(src[0].amount, dst[0].amount)`
from the head surplus validator to the head deficit validator, removing an
entry once its amount is exhausted, until one list empties. -/
def greedy : List Delegation → List Delegation → List Redelegation
  | [], _ => []
  | _ :: _, [] => []
  | s :: ss, d :: ds =>
    ⟨s.validator, d.validator, min s.amount d.amount⟩ ::
      greedy (if s.amount = min s.amount d.amount then ss
              else ⟨s.validator, s.amount - min s.amount d.amount⟩ :: ss)
             (if d.amount = min s.amount d.amount then ds
              else ⟨d.validator, d.amount - min s.amount d.amount⟩ :: ds)
termination_by src dst => src.length + dst.length
decreasing_by
  rcases Nat.le_total s.amount d.amount with h | h
  · rw [Nat.min_eq_left h]
    split <;> split <;> simp_all [List.length]
    all_goals omega
  · rw [Nat.min_eq_right h]
    split <;> split <;> simp_all [List.length]
    all_goals omega

/-- Embeds `compute_redelegations_for_rebalancing` (math.rs lines 150-212).
The source divides `utoken_staked` by `validator_count`, panicking on an
empty delegation list. -/
def compute_redelegations_for_rebalancing
    (current_delegations : List Delegation) : Option (List Redelegation) :=
  if current_delegations.length = 0 then none
  else
    let staked := sumAmounts current_delegations
    let n := current_delegations.length
    let p := buildSrcDst (staked / n) (staked % n) 0 current_delegations
    some (greedy p.1 p.2)

/-- The `for (i, batch)` loop of `reconcile_batches` (math.rs lines 229-239):
subtract the even share from each batch's `utoken_unclaimed` (checked
`Uint128` subtraction) and set `reconciled`. -/
def reconcileLoop (per rem : Nat) : Nat → List Batch → Option (List Batch)
  | _, [] => some []
  | i, b :: rest =>
    match checkedSub b.utoken_unclaimed (evenShare per rem i) with
    | none => none
    | some u =>
      (reconcileLoop per rem (i + 1) rest).map
        fun l => { b with utoken_unclaimed := u, reconciled := true } :: l

/-- Embeds `reconcile_batches` (math.rs lines 224-240): divide
`utoken_to_deduct` by `batch_count` (panic when no batches) and deduct the
even split with the remainder going one unit each to the first batches. -/
def reconcile_batches (batches : List Batch) (utoken_to_deduct : Nat) :
    Option (List Batch) :=
  if batches.length = 0 then none
  else
    reconcileLoop (utoken_to_deduct / batches.length)
      (utoken_to_deduct % batches.length) 0 batches

/-- Embeds `mark_reconciled_batches` (math.rs lines 243-247). -/
def mark_reconciled_batches (batches : List Batch) : List Batch :=
  batches.map fun b => { b with reconciled := true }

/-- The candidate batches of `reconcile` (execute.rs lines 622-637): the
stored batches with `reconciled == false`, filtered to those whose
`est_unbond_end_time` lies strictly before `current_time`. -/
def candidateBatches (previous_batches : List Batch) (current_time : Nat) :
    List Batch :=
  (previous_batches.filter fun b => b.reconciled = false).filter
    fun b => b.est_unbond_end_time < current_time

/-- Embeds the state effect of `reconcile` (execute.rs lines 617-678).
`previous_batches` stands for the stored batch records in key order,
`unlocked` for the `CONTRACT_DENOM` entry of `unlocked_coins`, `actual`
for the queried contract balance.  The result is the list of batch records
written back to storage (each replacing the stored record with the same
id); `some []` is the early no-op return, `none` the arithmetic panic
inside `reconcile_batches`. -/
def reconcile (previous_batches : List Batch)
    (current_time unlocked actual : Nat) : Option (List Batch) :=
  let batches := candidateBatches previous_batches current_time
  let utoken_expected_received := (batches.map (·.utoken_unclaimed)).sum
  if utoken_expected_received = 0 then some []
  else
    let utoken_expected := utoken_expected_received + unlocked
    if utoken_expected ≤ actual then some (mark_reconciled_batches batches)
    else reconcile_batches batches (utoken_expected - actual)

/-- Embeds `state.previous_batches.load(storage, id)`: first stored batch
with the given id. -/
def loadBatch : List Batch → Nat → Option Batch
  | [], _ => none
  | b :: rest, i => if b.id = i then some b else loadBatch rest i

/-- Embeds `state.previous_batches.remove(storage, id)`. -/
def removeBatch : List Batch → Nat → List Batch
  | [], _ => []
  | b :: rest, i =>
    if b.id = i then removeBatch rest i else b :: removeBatch rest i

/-- Embeds `state.previous_batches.save(storage, b.id, &b)`: replace the
stored record(s) keyed by `b.id` with `b`. -/
def saveBatch (store : List Batch) (b : Batch) : List Batch :=
  store.map fun x => if x.id = b.id then b else x

/-- Error type covering the `ContractError` variants reached by the
embedded operations (error.rs / execute.rs). -/
inductive ContractError where
  | DonationsDisabled
  | CantBeZero (field : String)
  | SubmitBatchAfter (t : Nat)
  | Std (msg : String)
deriving DecidableEq, Repr

/-- The `for request in &requests` loop of `withdraw_unbonded`
(execute.rs lines 707-728): walks the user's unbond requests, refunds
each one whose batch exists, is reconciled and has finished unbonding,
updates or deletes the batch, deletes the request, and accumulates the
total refund.  Returns the total, the batch store after the loop, and the
requests that were left in place; `none` is an arithmetic panic. -/
def wLoop (t : Nat) : List UnbondRequest → List Batch → Nat →
    Option (Nat × List Batch × List UnbondRequest)
  | [], store, total => some (total, store, [])
  | r :: rest, store, total =>
    match loadBatch store r.id with
    | none =>
      (wLoop t rest store total).map fun o => (o.1, o.2.1, r :: o.2.2)
    | some b =>
      if b.reconciled = true ∧ b.est_unbond_end_time < t then
        match fullMulDiv b.utoken_unclaimed r.shares b.total_shares with
        | none => none
        | some refund =>
          match checkedSub b.total_shares r.shares,
                checkedSub b.utoken_unclaimed refund with
          | some ts, some uu =>
            wLoop t rest
              (if ts = 0 then removeBatch store r.id
               else saveBatch store
                 { b with total_shares := ts, utoken_unclaimed := uu })
              (total + refund)
          | _, _ => none
      else
        (wLoop t rest store total).map fun o => (o.1, o.2.1, r :: o.2.2)

/-- Embeds the state effect of `withdraw_unbonded`
(execute.rs lines 680-749): run the request loop starting from a zero
total and fail with the zero-amount error when the accumulated refund is
zero.  `store` stands for the stored previous batches, `requests` for the
user's unbond requests in key order. -/
def withdraw_unbonded (current_time : Nat) (store : List Batch)
    (requests : List UnbondRequest) :
    Option (Except ContractError (Nat × List Batch × List UnbondRequest)) :=
  (wLoop current_time requests store 0).map fun o =>
    if o.1 = 0 then Except.error (ContractError.CantBeZero "withdrawable amount")
    else Except.ok o

/-- The `allow_donations` flag saved by `instantiate` (execute.rs lines
65-66): `state.allow_donations.save(deps.storage, &false)`. -/
def instantiateAllowDonations : Option Bool := some false

/-- Embeds the donation path of `bond` (execute.rs lines 144-156,
162-177) with `donate = true`: the `allow_donations` gate
(`Some(false)` errors with `DonationsDisabled`, `Some(true)` and `None`
are allowed), `ustake_to_mint = 0`, no mint message and no change to the
stake token. -/
def bondDonate (allow_donations : Option Bool) (stake : StakeToken) :
    Except ContractError (StakeToken × Nat) :=
  match allow_donations with
  | some false => Except.error ContractError.DonationsDisabled
  | some true => Except.ok (stake, 0)
  | none => Except.ok (stake, 0)

/-- The pending batch saved by `instantiate` (execute.rs lines 83-90). -/
def instantiatePendingBatch (now epoch_period : Nat) : PendingBatch :=
  { id := 1
    ustake_to_burn := 0
    est_unbond_start_time := now + epoch_period }

/-- The state written by a successful `submit_batch`. -/
structure SubmitOutcome where
  batch : Batch
  pending : PendingBatch
  stake : StakeToken
deriving DecidableEq, Repr

/-- Embeds the state effect of `submit_batch` (execute.rs lines 551-615):
the time gate, `compute_unbond_amount`, the undelegation computation, the
new previous `Batch`, the replacement `PendingBatch` and the burn applied
to the stored total supply (`checked_sub`, surfaced as an error by `?`).
`none` is an arithmetic panic inside the ratio or undelegation math. -/
def submit_batch (pending : PendingBatch) (stake : StakeToken)
    (delegations : List Delegation) (unbond_period epoch_period now : Nat) :
    Option (Except ContractError SubmitOutcome) :=
  if now < pending.est_unbond_start_time then
    some (Except.error (ContractError.SubmitBatchAfter pending.est_unbond_start_time))
  else
    match compute_unbond_amount stake.total_supply pending.ustake_to_burn delegations with
    | none => none
    | some utoken_to_unbond =>
      match compute_undelegations utoken_to_unbond delegations with
      | none => none
      | some _ =>
        match checkedSub stake.total_supply pending.ustake_to_burn with
        | none => some (Except.error (ContractError.Std "overflow"))
        | some supply =>
          some (Except.ok
            { batch :=
                { id := pending.id
                  reconciled := false
                  total_shares := pending.ustake_to_burn
                  utoken_unclaimed := utoken_to_unbond
                  est_unbond_end_time := now + unbond_period }
              pending :=
                { id := pending.id + 1
                  ustake_to_burn := 0
                  est_unbond_start_time := now + epoch_period }
              stake := { denom := stake.denom, total_supply := supply } })

/-- Embeds `eris_staking::hub::CallbackMsg` as dispatched by `callback`
(contract.rs lines 114-117). -/
inductive CallbackMsg where
  | Reinvest
  | Swap
deriving DecidableEq, Repr

/-- The handler a callback message dispatches to. -/
inductive CallbackAction where
  | runReinvest
  | runSwap
deriving DecidableEq, Repr

/-- Embeds `callback` (contract.rs lines 104-118): reject any sender other
than the contract's own address, then dispatch the message. -/
def callback (contract_address sender : String) (msg : CallbackMsg) :
    Except String CallbackAction :=
  if contract_address ≠ sender then
    Except.error "callbacks can only be invoked by the contract itself"
  else
    Except.ok (match msg with
      | CallbackMsg.Reinvest => CallbackAction.runReinvest
      | CallbackMsg.Swap => CallbackAction.runSwap)

/-! ## Specification-side helper definitions -/

/-- The deficit `reconcile` distributes on a shortfall:
`expected - actual` where `expected` is the candidate batches' unclaimed
sum plus the unlocked base-token balance. -/
def deficitOf (prev : List Batch) (t unlocked actual : Nat) : Nat :=
  ((candidateBatches prev t).map (·.utoken_unclaimed)).sum + unlocked - actual

/-- The share of the deficit absorbed by the `j`-th candidate batch:
`deficit / n` plus one extra unit for the first `deficit % n` batches. -/
def batchShare (prev : List Batch) (t unlocked actual j : Nat) : Nat :=
  evenShare (deficitOf prev t unlocked actual / (candidateBatches prev t).length)
    (deficitOf prev t unlocked actual % (candidateBatches prev t).length) j

/-- Sum of the amounts of an undelegation list. -/
def sumUndel (us : List Undelegation) : Nat :=
  (us.map (·.amount)).sum

/-- Sum of the per-validator undelegation amounts before capping by the
running available amount: `Σ (amount - evenShare)` in truncated
subtraction, walking the list from position `i`. -/
def uncappedSum (per rem : Nat) : Nat → List Delegation → Nat
  | _, [] => 0
  | i, d :: rest => (d.amount - evenShare per rem i) + uncappedSum per rem (i + 1) rest

/-- Sum of the per-position even shares from position `i` along a list. -/
def keepSum (per rem : Nat) : Nat → List Delegation → Nat
  | _, [] => 0
  | i, _ :: rest => evenShare per rem i + keepSum per rem (i + 1) rest

/-- A request is payable by `withdraw_unbonded`: its batch exists, is
reconciled, has finished unbonding, and its stored values are in the
domain where the source's `Uint128` arithmetic does not abort (a positive
share total at least the request's shares, unclaimed amount in `u128`). -/
def Eligible (store : List Batch) (t : Nat) (r : UnbondRequest) : Prop :=
  ∃ b, loadBatch store r.id = some b ∧ b.reconciled = true ∧
    b.est_unbond_end_time < t ∧ 0 < b.total_shares ∧
    r.shares ≤ b.total_shares ∧ b.utoken_unclaimed < U128

/-- The refund a request obtains against a given batch store:
`floor(unclaimed * shares / total_shares)` of its batch. -/
def refundOf (store : List Batch) (r : UnbondRequest) : Nat :=
  match loadBatch store r.id with
  | some b => b.utoken_unclaimed * r.shares / b.total_shares
  | none => 0

/-- Total refund of a request list, each computed against the same
original store. -/
def specTotal (store : List Batch) (reqs : List UnbondRequest) : Nat :=
  (reqs.map (refundOf store)).sum

/-- What the claim says happens to a request's batch: both `total_shares`
and `utoken_unclaimed` are decremented by the consumed shares / refund,
and the record is deleted exactly when `total_shares` reaches zero. -/
def specBatchAfter (r : UnbondRequest) : Option Batch → Option Batch
  | some b =>
    if b.total_shares - r.shares = 0 then none
    else some { b with
      total_shares := b.total_shares - r.shares,
      utoken_unclaimed :=
        b.utoken_unclaimed - b.utoken_unclaimed * r.shares / b.total_shares }
  | none => none

/-- Applying one redelegation to a delegation snapshot: the amount moves
from the source validator's entry to the destination validator's entry. -/
def applyRedelegation (ds : List Delegation) (r : Redelegation) : List Delegation :=
  ds.map fun d =>
    if d.validator = r.src then { d with amount := d.amount - r.amount }
    else if d.validator = r.dst then { d with amount := d.amount + r.amount }
    else d

/-- Applying a list of redelegations in order. -/
def applyRedelegations (ds : List Delegation) (rs : List Redelegation) : List Delegation :=
  rs.foldl applyRedelegation ds

/-- The effect of one redelegation on one validator's amount. -/
def stepAmount (v : String) (a : Nat) (r : Redelegation) : Nat :=
  if v = r.src then a - r.amount else if v = r.dst then a + r.amount else a

/-- The effect of a redelegation list on one validator's amount. -/
def foldAmount (v : String) (a : Nat) (rs : List Redelegation) : Nat :=
  rs.foldl (stepAmount v) a

/-- Total amount redelegated away from validator `v`. -/
def sentFrom (v : String) : List Redelegation → Nat
  | [] => 0
  | r :: rest => (if r.src = v then r.amount else 0) + sentFrom v rest

/-- Total amount redelegated to validator `v`. -/
def recvBy (v : String) : List Redelegation → Nat
  | [] => 0
  | r :: rest => (if r.dst = v then r.amount else 0) + recvBy v rest

/-- Total amount held by validator `v` in a delegation list. -/
def valAmount (v : String) : List Delegation → Nat
  | [] => 0
  | d :: rest => (if d.validator = v then d.amount else 0) + valAmount v rest

/-- The even-target list the claim describes: each validator keeps its
identity and receives `total / n`, with one extra unit for the first
`total % n` positions. -/
def targetsFrom (per rem : Nat) : Nat → List Delegation → List Delegation
  | _, [] => []
  | i, d :: rest => ⟨d.validator, evenShare per rem i⟩ :: targetsFrom per rem (i + 1) rest

/-- The even target distribution for a delegation snapshot. -/
def targetList (ds : List Delegation) : List Delegation :=
  targetsFrom (sumAmounts ds / ds.length) (sumAmounts ds % ds.length) 0 ds

/-! ## Theorems -/

/-- C1: for every delegation list and every supply and deposit amount,
`compute_mint_amount` returns the deposit itself when the sum of current
delegation amounts is zero, and otherwise returns
`floor(supply * deposit / bonded)` where `bonded` is that sum, the
intermediate product being taken in full width (only the quotient is
required to fit `u128`). -/
theorem compute_mint_amount_spec (ustake_supply utoken_to_bond : Nat)
    (ds : List Delegation) :
    (sumAmounts ds = 0 →
      compute_mint_amount ustake_supply utoken_to_bond ds = some utoken_to_bond) ∧
    (sumAmounts ds ≠ 0 →
      ustake_supply * utoken_to_bond / sumAmounts ds < U128 →
      compute_mint_amount ustake_supply utoken_to_bond ds =
        some (ustake_supply * utoken_to_bond / sumAmounts ds)) := by
  constructor
  · intro h
    simp [compute_mint_amount, h]
  · intro h hq
    simp [compute_mint_amount, h, fullMulDiv, hq]

/-- Witness for C1: a bootstrap mint (`bonded = 0`) mints the deposit 1:1,
and a mint whose intermediate product `2^100 * 2^100` overflows `u128`
still returns the exact floor quotient thanks to the full-width
multiplication. -/
theorem compute_mint_amount_spec_witness :
    compute_mint_amount 300 7 [] = some 7 ∧
    compute_mint_amount (2 ^ 100) (2 ^ 100) [⟨"v", 2 ^ 150⟩] = some (2 ^ 50) := by
  constructor
  · exact (compute_mint_amount_spec 300 7 []).1 (by decide)
  · have h := (compute_mint_amount_spec (2 ^ 100) (2 ^ 100) [⟨"v", 2 ^ 150⟩]).2
      (by norm_num [sumAmounts]) (by norm_num [sumAmounts, U128])
    rw [h]
    norm_num [sumAmounts]

/-- C5 counterexample: `instantiate` stores `allow_donations = false`
(execute.rs line 66), so directly after instantiation the flag is neither
`true` nor unset, and an attempted donation fails with
`DonationsDisabled` — refuting the claim that the flag defaults to
allowed after instantiation. -/
theorem donations_default_counterexample :
    instantiateAllowDonations = some false ∧
    bondDonate instantiateAllowDonations ⟨"factory/hub/stake", 100⟩ =
      Except.error ContractError.DonationsDisabled := by
  exact ⟨rfl, rfl⟩

/-- C5 (amended): `instantiate` sets the donations-allowed flag to `false`
(donations are disabled by default after instantiation); an unset flag —
the backward-compatibility case for pre-existing deployments — or a flag
set to `true` permits a donation (which mints nothing and leaves the
stake token unchanged), while a donation attempted with the flag `false`
fails with a `DonationsDisabled` error, leaving state unchanged. -/
theorem donations_flag_spec :
    instantiateAllowDonations = some false ∧
    ∀ stake : StakeToken,
      bondDonate (some false) stake = Except.error ContractError.DonationsDisabled ∧
      bondDonate (some true) stake = Except.ok (stake, 0) ∧
      bondDonate none stake = Except.ok (stake, 0) := by
  exact ⟨rfl, fun stake => ⟨rfl, rfl, rfl⟩⟩

/-- Witness for C5 (amended) at a concrete stake token. -/
theorem donations_flag_spec_witness :
    bondDonate (some false) ⟨"stake", 42⟩ = Except.error ContractError.DonationsDisabled ∧
    bondDonate (some true) ⟨"stake", 42⟩ = Except.ok (⟨"stake", 42⟩, 0) ∧
    bondDonate none ⟨"stake", 42⟩ = Except.ok (⟨"stake", 42⟩, 0) :=
  donations_flag_spec.2 ⟨"stake", 42⟩

/-- C7 counterexample: a candidate batch with `utoken_unclaimed = 0`
together with a non-zero unlocked balance.  The claim's `expected`
(candidates' unclaimed sum plus unlocked = 5) is non-zero and the actual
balance (10) is at least `expected`, yet `reconcile` takes its early
no-op return (it tests only the candidates' unclaimed sum) and writes
nothing back, so the candidate batch is not marked `reconciled`. -/
theorem reconcile_marks_counterexample :
    candidateBatches [⟨1, false, 10, 0, 0⟩] 1 = [⟨1, false, 10, 0, 0⟩] ∧
    ((candidateBatches [⟨1, false, 10, 0, 0⟩] 1).map (·.utoken_unclaimed)).sum + 5 ≠ 0 ∧
    ((candidateBatches [⟨1, false, 10, 0, 0⟩] 1).map (·.utoken_unclaimed)).sum + 5 ≤ 10 ∧
    reconcile [⟨1, false, 10, 0, 0⟩] 1 5 10 = some [] ∧
    some [] ≠
      some (mark_reconciled_batches (candidateBatches [⟨1, false, 10, 0, 0⟩] 1)) := by
  refine ⟨rfl, by decide, by decide, rfl, by decide⟩

/-- C7 (amended): whenever the candidate batches' unclaimed sum is zero —
in particular whenever `expected = 0` — `reconcile` is a no-op writing no
state; and whenever that sum is non-zero and the actual balance is at
least `expected` (sum plus unlocked balance), every candidate batch
(unreconciled, `est_unbond_end_time` passed) is written back with
`reconciled = true` and its `utoken_unclaimed` and all other fields
unchanged. -/
theorem reconcile_noop_and_mark_spec :
    (∀ prev t unlocked actual,
      ((candidateBatches prev t).map (·.utoken_unclaimed)).sum = 0 →
      reconcile prev t unlocked actual = some []) ∧
    (∀ prev t unlocked actual,
      ((candidateBatches prev t).map (·.utoken_unclaimed)).sum ≠ 0 →
      ((candidateBatches prev t).map (·.utoken_unclaimed)).sum + unlocked ≤ actual →
      reconcile prev t unlocked actual =
        some ((candidateBatches prev t).map fun b => { b with reconciled := true })) := by
  constructor
  · intro prev t unlocked actual h
    simp [reconcile, h]
  · intro prev t unlocked actual h hle
    simp [reconcile, h, hle, mark_reconciled_batches]

/-- Witness for C7 (amended): a run with no candidates is a no-op, and a
run with a candidate batch and sufficient balance marks it reconciled,
leaving every other field unchanged. -/
theorem reconcile_noop_and_mark_spec_witness :
    reconcile [⟨1, false, 5, 7, 10⟩] 0 3 0 = some [] ∧
    reconcile [⟨2, false, 5, 7, 0⟩] 1 1 8 =
      some ((candidateBatches [⟨2, false, 5, 7, 0⟩] 1).map
        fun b => { b with reconciled := true }) :=
  ⟨reconcile_noop_and_mark_spec.1 [⟨1, false, 5, 7, 10⟩] 0 3 0 (by decide),
   reconcile_noop_and_mark_spec.2 [⟨2, false, 5, 7, 0⟩] 1 1 8 (by decide) (by decide)⟩

@[simp] theorem sumAmounts_nil : sumAmounts [] = 0 := rfl

@[simp] theorem sumAmounts_cons (d : Delegation) (l : List Delegation) :
    sumAmounts (d :: l) = d.amount + sumAmounts l := by
  simp [sumAmounts]

@[simp] theorem sumUndel_nil : sumUndel [] = 0 := rfl

@[simp] theorem sumUndel_cons (x : Undelegation) (l : List Undelegation) :
    sumUndel (x :: l) = x.amount + sumUndel l := by
  simp [sumUndel]

@[simp] theorem sumUndel_append (a b : List Undelegation) :
    sumUndel (a ++ b) = sumUndel a + sumUndel b := by
  simp [sumUndel]

/-- The undelegation loop allocates exactly
`min utoken_available (Σ uncapped amounts)`. -/
theorem undelLoop_sum (per rem : Nat) :
    ∀ (l : List Delegation) (i avail : Nat),
      sumUndel (undelLoop per rem i avail l) =
        min avail (uncappedSum per rem i l) := by
  intro l
  induction l with
  | nil =>
    intro i avail
    simp [undelLoop, uncappedSum]
  | cons d rest ih =>
    intro i avail
    have hentry : ∀ (v : String) (x : Nat),
        sumUndel (if 0 < x then [⟨v, x⟩] else []) = x := by
      intro v x
      split
      · simp
      · simp
        omega
    have hraw : (if d.amount < evenShare per rem i then 0
        else d.amount - evenShare per rem i) = d.amount - evenShare per rem i := by
      split
      · omega
      · rfl
    simp only [undelLoop, uncappedSum, hraw]
    by_cases hz :
        avail - min (d.amount - evenShare per rem i) avail = 0
    · rw [if_pos hz, hentry]
      omega
    · rw [if_neg hz, sumUndel_append, hentry, ih]
      omega

/-- Every undelegation the loop emits has a strictly positive amount. -/
theorem undelLoop_pos (per rem : Nat) :
    ∀ (l : List Delegation) (i avail : Nat) (x : Undelegation),
      x ∈ undelLoop per rem i avail l → 0 < x.amount := by
  intro l
  induction l with
  | nil =>
    intro i avail x hx
    simp [undelLoop] at hx
  | cons d rest ih =>
    intro i avail x hx
    have hmem : ∀ (v : String) (a : Nat),
        x ∈ (if 0 < a then ([⟨v, a⟩] : List Undelegation) else []) → 0 < x.amount := by
      intro v a hx2
      split at hx2
      · simp at hx2
        subst hx2
        assumption
      · simp at hx2
    have hraw : (if d.amount < evenShare per rem i then 0
        else d.amount - evenShare per rem i) = d.amount - evenShare per rem i := by
      split
      · omega
      · rfl
    simp only [undelLoop, hraw] at hx
    split at hx
    · exact hmem _ _ hx
    · rcases List.mem_append.mp hx with h | h
      · exact hmem _ _ h
      · exact ih _ _ _ h

/-- Closed form for the sum of even shares along a list. -/
theorem keepSum_eval (per rem : Nat) :
    ∀ (l : List Delegation) (i : Nat),
      keepSum per rem i l =
        per * l.length + (min rem (i + l.length) - min rem i) := by
  intro l
  induction l with
  | nil =>
    intro i
    simp [keepSum]
  | cons d rest ih =>
    intro i
    simp only [keepSum, ih (i + 1), evenShare, List.length_cons, Nat.mul_succ]
    split
    · omega
    · omega

/-- The uncapped undelegation amounts dominate
`staked - Σ even shares`. -/
theorem uncappedSum_ge (per rem : Nat) :
    ∀ (l : List Delegation) (i : Nat),
      sumAmounts l - keepSum per rem i l ≤ uncappedSum per rem i l := by
  intro l
  induction l with
  | nil =>
    intro i
    simp [keepSum, uncappedSum]
  | cons d rest ih =>
    intro i
    have := ih (i + 1)
    simp only [keepSum, uncappedSum, sumAmounts_cons]
    omega

/-- C2: for every non-empty delegation list and unbond amount not
exceeding the total staked, `compute_undelegations` succeeds, its outputs
sum to exactly the requested amount, and every emitted undelegation is
strictly positive; and on delegations `{A:100, B:110, C:120}` with
`utoken_to_unbond = 33` the result is exactly `{A:1, B:11, C:21}`. -/
theorem compute_undelegations_spec :
    (∀ (u : Nat) (ds : List Delegation), ds ≠ [] → u ≤ sumAmounts ds →
      ∃ us, compute_undelegations u ds = some us ∧ sumUndel us = u ∧
        ∀ x ∈ us, 0 < x.amount) ∧
    compute_undelegations 33 [⟨"A", 100⟩, ⟨"B", 110⟩, ⟨"C", 120⟩] =
      some [⟨"A", 1⟩, ⟨"B", 11⟩, ⟨"C", 21⟩] := by
  constructor
  · intro u ds hne hle
    have hlen : ds.length ≠ 0 := by
      simpa [List.length_eq_zero] using hne
    have hcs : checkedSub (sumAmounts ds) u = some (sumAmounts ds - u) := by
      simp [checkedSub, hle]
    refine ⟨undelLoop ((sumAmounts ds - u) / ds.length)
        ((sumAmounts ds - u) % ds.length) 0 u ds, ?_, ?_, ?_⟩
    · simp [compute_undelegations, hlen, hcs]
    · rw [undelLoop_sum]
      have hrem : (sumAmounts ds - u) % ds.length < ds.length :=
        Nat.mod_lt _ (Nat.pos_of_ne_zero hlen)
      have hk : keepSum ((sumAmounts ds - u) / ds.length)
          ((sumAmounts ds - u) % ds.length) 0 ds = sumAmounts ds - u := by
        rw [keepSum_eval, Nat.zero_add, Nat.min_zero, Nat.sub_zero,
          Nat.min_eq_left (Nat.le_of_lt hrem)]
        have hdm := Nat.div_add_mod (sumAmounts ds - u) ds.length
        rw [Nat.mul_comm] at hdm
        exact hdm
      have hge := uncappedSum_ge ((sumAmounts ds - u) / ds.length)
        ((sumAmounts ds - u) % ds.length) ds 0
      omega
    · intro x hx
      exact undelLoop_pos _ _ ds 0 u x hx
  · decide

/-- Witness for C2: the spec example, obtained through the theorem. -/
theorem compute_undelegations_spec_witness :
    ∃ us, compute_undelegations 33 [⟨"A", 100⟩, ⟨"B", 110⟩, ⟨"C", 120⟩] = some us ∧
      sumUndel us = 33 ∧ ∀ x ∈ us, 0 < x.amount :=
  compute_undelegations_spec.1 33 [⟨"A", 100⟩, ⟨"B", 110⟩, ⟨"C", 120⟩]
    (by decide) (by decide)

/-- The reconciliation loop succeeds and deducts the even share from every
batch as soon as no share exceeds its batch's unclaimed amount. -/
theorem reconcileLoop_sound (per rem : Nat) :
    ∀ (l : List Batch) (i : Nat),
      (∀ j (h : j < l.length),
        evenShare per rem (i + j) ≤ (l.get ⟨j, h⟩).utoken_unclaimed) →
      ∃ l2, reconcileLoop per rem i l = some l2 ∧ l2.length = l.length ∧
        ∀ j (h : j < l.length) (h2 : j < l2.length),
          l2.get ⟨j, h2⟩ =
            { l.get ⟨j, h⟩ with
              utoken_unclaimed :=
                (l.get ⟨j, h⟩).utoken_unclaimed - evenShare per rem (i + j),
              reconciled := true } := by
  intro l
  induction l with
  | nil =>
    intro i _
    exact ⟨[], rfl, rfl, fun j h => absurd h (by simp)⟩
  | cons b rest ih =>
    intro i hyp
    have hb : evenShare per rem i ≤ b.utoken_unclaimed := by
      have := hyp 0 (by simp)
      simpa using this
    obtain ⟨l2, hl2, hlen, hget⟩ := ih (i + 1) (fun j h => by
      have h2 := hyp (j + 1) (by simpa using Nat.succ_lt_succ h)
      have he : i + (j + 1) = i + 1 + j := by omega
      rw [he] at h2
      simpa using h2)
    have hcs : checkedSub b.utoken_unclaimed (evenShare per rem i) =
        some (b.utoken_unclaimed - evenShare per rem i) := by
      simp [checkedSub, hb]
    refine ⟨{ b with
        utoken_unclaimed := b.utoken_unclaimed - evenShare per rem i,
        reconciled := true } :: l2, ?_, by simp [hlen], ?_⟩
    · simp [reconcileLoop, hcs, hl2]
    · intro j h h2
      cases j with
      | zero => simp
      | succ j =>
        have hr : j < rest.length := by simpa using Nat.lt_of_succ_lt_succ h
        have h2r : j < l2.length := by
          rw [hlen]; exact hr
        have he : i + (j + 1) = i + 1 + j := by omega
        simp only [List.get_cons_succ, he]
        exact hget j hr h2r

/-- C3: when `reconcile` runs with a shortfall (`actual` below
`expected = Σ candidate unclaimed + unlocked`), the deficit is split over
the `n` candidate batches as `deficit / n` with the first `deficit % n`
batches (in iteration order) absorbing one extra unit; each candidate is
written back with its unclaimed amount reduced by exactly its share and
its `reconciled` flag set, the other fields untouched.  For a single
unreconciled batch with unclaimed 33 and `actual = 30` against
`expected = 33`, the batch ends with unclaimed 30 and `reconciled`. -/
theorem reconcile_shortfall_spec :
    (∀ prev t unlocked actual,
      ((candidateBatches prev t).map (·.utoken_unclaimed)).sum ≠ 0 →
      actual < ((candidateBatches prev t).map (·.utoken_unclaimed)).sum + unlocked →
      (∀ j (h : j < (candidateBatches prev t).length),
        batchShare prev t unlocked actual j ≤
          ((candidateBatches prev t).get ⟨j, h⟩).utoken_unclaimed) →
      ∃ l2, reconcile prev t unlocked actual = some l2 ∧
        l2.length = (candidateBatches prev t).length ∧
        ∀ j (h : j < (candidateBatches prev t).length) (h2 : j < l2.length),
          l2.get ⟨j, h2⟩ =
            { (candidateBatches prev t).get ⟨j, h⟩ with
              utoken_unclaimed :=
                ((candidateBatches prev t).get ⟨j, h⟩).utoken_unclaimed -
                  batchShare prev t unlocked actual j,
              reconciled := true }) ∧
    reconcile [⟨1, false, 33, 33, 10⟩] 11 0 30 = some [⟨1, true, 33, 30, 10⟩] := by
  constructor
  · intro prev t unlocked actual hsum hact hshare
    have hne : (candidateBatches prev t).length ≠ 0 := by
      intro h0
      apply hsum
      rw [List.length_eq_zero.mp h0]
      rfl
    have hrec : reconcile prev t unlocked actual =
        reconcileLoop
          (deficitOf prev t unlocked actual / (candidateBatches prev t).length)
          (deficitOf prev t unlocked actual % (candidateBatches prev t).length)
          0 (candidateBatches prev t) := by
      simp only [reconcile, reconcile_batches, deficitOf]
      rw [if_neg hsum, if_neg (Nat.not_le.mpr hact), if_neg hne]
    obtain ⟨l2, hl2, hlen, hget⟩ :=
      reconcileLoop_sound
        (deficitOf prev t unlocked actual / (candidateBatches prev t).length)
        (deficitOf prev t unlocked actual % (candidateBatches prev t).length)
        (candidateBatches prev t) 0
        (fun j h => by simpa [batchShare] using hshare j h)
    refine ⟨l2, hrec.trans hl2, hlen, fun j h h2 => ?_⟩
    have := hget j h h2
    simpa [batchShare] using this
  · decide

/-- Witness for C3: a single candidate batch (unclaimed 33) against
`actual = 30` absorbs the whole deficit of 3. -/
theorem reconcile_shortfall_spec_witness :
    ∃ l2, reconcile [⟨7, false, 40, 33, 5⟩] 6 0 30 = some l2 ∧
      l2.length = (candidateBatches [⟨7, false, 40, 33, 5⟩] 6).length ∧
      ∀ j (h : j < (candidateBatches [⟨7, false, 40, 33, 5⟩] 6).length)
        (h2 : j < l2.length),
        l2.get ⟨j, h2⟩ =
          { (candidateBatches [⟨7, false, 40, 33, 5⟩] 6).get ⟨j, h⟩ with
            utoken_unclaimed :=
              ((candidateBatches [⟨7, false, 40, 33, 5⟩] 6).get ⟨j, h⟩).utoken_unclaimed -
                batchShare [⟨7, false, 40, 33, 5⟩] 6 0 30 j,
            reconciled := true } := by
  refine reconcile_shortfall_spec.1 [⟨7, false, 40, 33, 5⟩] 6 0 30 (by decide) (by decide) ?_
  intro j h
  have hlen : (candidateBatches [⟨7, false, 40, 33, 5⟩] 6).length = 1 := by decide
  rw [hlen] at h
  have hj : j = 0 := Nat.lt_one_iff.mp h
  subst hj
  exact (by decide : batchShare [⟨7, false, 40, 33, 5⟩] 6 0 30 0 ≤ 33)

/-- C8: the pending batch is created at instantiation with `id = 1` and
`ustake_to_burn = 0`, and every successful batch submission replaces it
with a new pending batch whose id is the previous id plus one and whose
`ustake_to_burn` is reset to zero (its start time moved one epoch ahead).
The contract keeps the pending batch in a single storage item, so exactly
one exists at any time. -/
theorem pending_batch_spec :
    (∀ now epoch_period : Nat,
      instantiatePendingBatch now epoch_period =
        { id := 1, ustake_to_burn := 0, est_unbond_start_time := now + epoch_period }) ∧
    (∀ pending stake delegations unbond_period epoch_period now out,
      submit_batch pending stake delegations unbond_period epoch_period now =
        some (Except.ok out) →
      out.pending =
        { id := pending.id + 1, ustake_to_burn := 0,
          est_unbond_start_time := now + epoch_period }) := by
  refine ⟨fun _ _ => rfl, ?_⟩
  intro pending stake delegations unbond_period epoch_period now out h
  unfold submit_batch at h
  split at h
  · simp at h
  · split at h
    · simp at h
    · split at h
      · simp at h
      · split at h
        · simp at h
        · simp only [Option.some.injEq] at h
          cases h
          rfl

/-- Witness for C8: a concrete successful submission (pending id 3,
burning 10 shares against supply 100 and 200 bonded at time 60) yields
the replacement pending batch with id 4 and zero shares to burn. -/
theorem pending_batch_spec_witness :
    ({ id := 4, ustake_to_burn := 0, est_unbond_start_time := 160 } : PendingBatch) =
      { id := 3 + 1, ustake_to_burn := 0, est_unbond_start_time := 60 + 100 } :=
  pending_batch_spec.2 ⟨3, 10, 50⟩ ⟨"s", 100⟩ [⟨"A", 200⟩] 1000 100 60
    { batch := ⟨3, false, 10, 20, 1060⟩
      pending := ⟨4, 0, 160⟩
      stake := ⟨"s", 90⟩ }
    (by rfl)

theorem loadBatch_id :
    ∀ (store : List Batch) (i : Nat) (b : Batch),
      loadBatch store i = some b → b.id = i := by
  intro store
  induction store with
  | nil => intro i b h; simp [loadBatch] at h
  | cons x rest ih =>
    intro i b h
    simp only [loadBatch] at h
    split at h
    · cases h
      assumption
    · exact ih i b h

theorem loadBatch_removeBatch_self :
    ∀ (store : List Batch) (i : Nat),
      loadBatch (removeBatch store i) i = none := by
  intro store
  induction store with
  | nil => intro i; rfl
  | cons x rest ih =>
    intro i
    simp only [removeBatch]
    split
    · exact ih i
    · simp only [loadBatch]
      rw [if_neg (by assumption)]
      exact ih i

theorem loadBatch_removeBatch_ne :
    ∀ (store : List Batch) (i j : Nat), j ≠ i →
      loadBatch (removeBatch store i) j = loadBatch store j := by
  intro store
  induction store with
  | nil => intro i j _; rfl
  | cons x rest ih =>
    intro i j hj
    simp only [removeBatch, loadBatch]
    split
    · rw [ih i j hj, if_neg (fun hx => hj (by cc))]
    · simp only [loadBatch]
      split
      · rfl
      · exact ih i j hj

theorem loadBatch_saveBatch_ne :
    ∀ (store : List Batch) (b : Batch) (j : Nat), j ≠ b.id →
      loadBatch (saveBatch store b) j = loadBatch store j := by
  intro store
  induction store with
  | nil => intro b j _; rfl
  | cons x rest ih =>
    intro b j hj
    by_cases hx : x.id = b.id
    · simp only [saveBatch, List.map_cons, if_pos hx, loadBatch]
      rw [if_neg (fun h => hj h.symm), if_neg (fun h : x.id = j => hj (by cc))]
      exact ih b j hj
    · simp only [saveBatch, List.map_cons, if_neg hx, loadBatch]
      split
      · rfl
      · exact ih b j hj

theorem loadBatch_saveBatch_self :
    ∀ (store : List Batch) (b c : Batch),
      loadBatch store b.id = some c →
      loadBatch (saveBatch store b) b.id = some b := by
  intro store
  induction store with
  | nil => intro b c h; simp [loadBatch] at h
  | cons x rest ih =>
    intro b c h
    simp only [loadBatch] at h
    by_cases hx : x.id = b.id
    · simp only [saveBatch, List.map_cons, if_pos hx, loadBatch]
      simp
    · simp only [saveBatch, List.map_cons, if_neg hx, loadBatch]
      rw [if_neg hx] at h
      exact ih b c h

theorem refund_le (u s ts : Nat) (hpos : 0 < ts) (hsh : s ≤ ts) :
    u * s / ts ≤ u := by
  calc u * s / ts ≤ u * ts / ts := Nat.div_le_div_right (Nat.mul_le_mul_left u hsh)
    _ = u := Nat.mul_div_cancel u hpos

/-- One iteration of the withdraw loop on an eligible request. -/
theorem wLoop_step (t total : Nat) (store : List Batch) (r : UnbondRequest)
    (rest : List UnbondRequest) (b : Batch)
    (hload : loadBatch store r.id = some b) (hrec : b.reconciled = true)
    (htime : b.est_unbond_end_time < t) (hpos : 0 < b.total_shares)
    (hsh : r.shares ≤ b.total_shares) (hu : b.utoken_unclaimed < U128) :
    wLoop t (r :: rest) store total =
      wLoop t rest
        (if b.total_shares - r.shares = 0 then removeBatch store r.id
         else saveBatch store
           { b with
             total_shares := b.total_shares - r.shares
             utoken_unclaimed := b.utoken_unclaimed -
               b.utoken_unclaimed * r.shares / b.total_shares })
        (total + b.utoken_unclaimed * r.shares / b.total_shares) := by
  have hfit : b.utoken_unclaimed * r.shares / b.total_shares < U128 :=
    Nat.lt_of_le_of_lt (refund_le _ _ _ hpos hsh) hu
  have hmr : fullMulDiv b.utoken_unclaimed r.shares b.total_shares =
      some (b.utoken_unclaimed * r.shares / b.total_shares) := by
    simp [fullMulDiv, Nat.pos_iff_ne_zero.mp hpos, hfit]
  have hts : checkedSub b.total_shares r.shares =
      some (b.total_shares - r.shares) := by
    simp [checkedSub, hsh]
  have huu : checkedSub b.utoken_unclaimed
      (b.utoken_unclaimed * r.shares / b.total_shares) =
      some (b.utoken_unclaimed -
        b.utoken_unclaimed * r.shares / b.total_shares) := by
    simp [checkedSub, refund_le b.utoken_unclaimed r.shares b.total_shares hpos hsh]
  simp only [wLoop, hload, hmr, hts, huu]
  rw [if_pos ⟨hrec, htime⟩]

/-- The withdraw loop on pairwise-distinct eligible requests refunds each
request its floor-proportional share of its batch (computed against the
original store), updates or deletes each touched batch as the claim
states, deletes every processed request, and leaves every other batch
untouched. -/
theorem wLoop_sound (t : Nat) :
    ∀ (reqs : List UnbondRequest) (store : List Batch) (total : Nat),
      (reqs.map (·.id)).Nodup →
      (∀ r ∈ reqs, Eligible store t r) →
      ∃ st2, wLoop t reqs store total = some (total + specTotal store reqs, st2, []) ∧
        (∀ i, i ∉ reqs.map (·.id) → loadBatch st2 i = loadBatch store i) ∧
        (∀ r ∈ reqs, loadBatch st2 r.id = specBatchAfter r (loadBatch store r.id)) := by
  intro reqs
  induction reqs with
  | nil =>
    intro store total _ _
    exact ⟨store, by simp [wLoop, specTotal], fun i _ => rfl,
      fun r hr => absurd hr (by simp)⟩
  | cons r rest ih =>
    intro store total hnd hel
    obtain ⟨b, hload, hrec, htime, hpos, hsh, hu⟩ := hel r (by simp)
    have hbid : b.id = r.id := loadBatch_id store r.id b hload
    have hstep := wLoop_step t total store r rest b hload hrec htime hpos hsh hu
    have hpres : ∀ j, j ≠ r.id →
        loadBatch (if b.total_shares - r.shares = 0 then removeBatch store r.id
          else saveBatch store
            { b with
              total_shares := b.total_shares - r.shares
              utoken_unclaimed := b.utoken_unclaimed -
                b.utoken_unclaimed * r.shares / b.total_shares }) j =
        loadBatch store j := by
      intro j hj
      split
      · exact loadBatch_removeBatch_ne store r.id j hj
      · exact loadBatch_saveBatch_ne store _ j (by simpa [hbid] using hj)
    have hnotin : r.id ∉ rest.map (·.id) := (List.nodup_cons.mp hnd).1
    have hel2 : ∀ r2 ∈ rest, Eligible
        (if b.total_shares - r.shares = 0 then removeBatch store r.id
         else saveBatch store
           { b with
             total_shares := b.total_shares - r.shares
             utoken_unclaimed := b.utoken_unclaimed -
               b.utoken_unclaimed * r.shares / b.total_shares }) t r2 := by
      intro r2 hr2
      obtain ⟨b2, hl2, h2a, h2b, h2c, h2d, h2e⟩ := hel r2 (by simp [hr2])
      have hne : r2.id ≠ r.id := by
        intro he
        exact hnotin (he ▸ List.mem_map_of_mem (·.id) hr2)
      exact ⟨b2, by rw [hpres r2.id hne]; exact hl2, h2a, h2b, h2c, h2d, h2e⟩
    obtain ⟨st2, hw, hunt, hpt⟩ := ih _ (total + b.utoken_unclaimed * r.shares / b.total_shares)
      (List.nodup_cons.mp hnd).2 hel2
    have hsp : specTotal
        (if b.total_shares - r.shares = 0 then removeBatch store r.id
         else saveBatch store
           { b with
             total_shares := b.total_shares - r.shares
             utoken_unclaimed := b.utoken_unclaimed -
               b.utoken_unclaimed * r.shares / b.total_shares }) rest =
        specTotal store rest := by
      unfold specTotal
      congr 1
      apply List.map_congr_left
      intro r2 hr2
      have hne : r2.id ≠ r.id := by
        intro he
        exact hnotin (he ▸ List.mem_map_of_mem (·.id) hr2)
      unfold refundOf
      rw [hpres r2.id hne]
    refine ⟨st2, ?_, ?_, ?_⟩
    · rw [hstep, hw, hsp]
      have hcons : specTotal store (r :: rest) =
          b.utoken_unclaimed * r.shares / b.total_shares + specTotal store rest := by
        simp [specTotal, refundOf, hload]
      rw [hcons]
      have : total + b.utoken_unclaimed * r.shares / b.total_shares + specTotal store rest =
          total + (b.utoken_unclaimed * r.shares / b.total_shares + specTotal store rest) := by
        omega
      rw [this]
    · intro i hi
      have h1 : i ≠ r.id := by
        intro he
        exact hi (by simp [he])
      have h2 : i ∉ rest.map (·.id) := by
        intro hm
        exact hi (by simp [hm])
      rw [hunt i h2, hpres i h1]
    · intro r2 hr2
      rcases List.mem_cons.mp hr2 with he | hm
      · subst he
        rw [hunt r2.id hnotin, hload]
        by_cases hz : b.total_shares - r2.shares = 0
        · rw [if_pos hz]
          have hrhs : specBatchAfter r2 (some b) = none := by
            simp [specBatchAfter, hz]
          rw [hrhs]
          exact loadBatch_removeBatch_self store r2.id
        · rw [if_neg hz]
          have hrhs : specBatchAfter r2 (some b) =
              some { b with
                total_shares := b.total_shares - r2.shares,
                utoken_unclaimed := b.utoken_unclaimed -
                  b.utoken_unclaimed * r2.shares / b.total_shares } := by
            simp [specBatchAfter, hz]
          rw [hrhs]
          have h2 : loadBatch store
              ({ b with
                total_shares := b.total_shares - r2.shares,
                utoken_unclaimed := b.utoken_unclaimed -
                  b.utoken_unclaimed * r2.shares / b.total_shares } : Batch).id =
              some b := by
            show loadBatch store b.id = some b
            rw [hbid]
            exact hload
          have h3 := loadBatch_saveBatch_self store
            { b with
              total_shares := b.total_shares - r2.shares,
              utoken_unclaimed := b.utoken_unclaimed -
                b.utoken_unclaimed * r2.shares / b.total_shares } b h2
          rw [← hbid]
          exact h3
      · have hne : r2.id ≠ r.id := by
          intro he
          exact hnotin (he ▸ List.mem_map_of_mem (·.id) hm)
        rw [hpt r2 hm, hpres r2.id hne]

/-- C4: `withdraw_unbonded` refunds, for each of the user's requests whose
batch exists, is reconciled and has finished unbonding, exactly
`floor(unclaimed * shares / total_shares)`; it decrements that batch's
`total_shares` and `utoken_unclaimed` by the consumed shares and refund,
deletes the batch when `total_shares` reaches zero and persists it
otherwise, deletes the request, leaves all other batches untouched, and
fails with the zero-amount error exactly when the accumulated total
refund is zero. -/
theorem withdraw_unbonded_spec (t : Nat) (store : List Batch)
    (reqs : List UnbondRequest) :
    (reqs.map (·.id)).Nodup →
    (∀ r ∈ reqs, Eligible store t r) →
    ∃ st2, withdraw_unbonded t store reqs =
        some (if specTotal store reqs = 0
          then Except.error (ContractError.CantBeZero "withdrawable amount")
          else Except.ok (specTotal store reqs, st2, [])) ∧
      (∀ i, i ∉ reqs.map (·.id) → loadBatch st2 i = loadBatch store i) ∧
      (∀ r ∈ reqs, loadBatch st2 r.id = specBatchAfter r (loadBatch store r.id)) := by
  intro hnd hel
  obtain ⟨st2, hw, hunt, hpt⟩ := wLoop_sound t reqs store 0 hnd hel
  refine ⟨st2, ?_, hunt, hpt⟩
  unfold withdraw_unbonded
  rw [hw]
  simp only [Option.map_some', Nat.zero_add]

/-- Witness for C4: the spec example — one request of 33 shares against a
reconciled batch with `total_shares = 33`, `unclaimed = 30` refunds 30
and deletes the batch. -/
theorem withdraw_unbonded_spec_witness :
    ∃ st2, withdraw_unbonded 1 [⟨1, true, 33, 30, 0⟩] [⟨1, "alice", 33⟩] =
        some (if specTotal [⟨1, true, 33, 30, 0⟩] [⟨1, "alice", 33⟩] = 0
          then Except.error (ContractError.CantBeZero "withdrawable amount")
          else Except.ok
            (specTotal [⟨1, true, 33, 30, 0⟩] [⟨1, "alice", 33⟩], st2, [])) ∧
      (∀ i, i ∉ [⟨1, "alice", 33⟩].map (UnbondRequest.id) →
        loadBatch st2 i = loadBatch [⟨1, true, 33, 30, 0⟩] i) ∧
      (∀ r ∈ [(⟨1, "alice", 33⟩ : UnbondRequest)],
        loadBatch st2 r.id = specBatchAfter r (loadBatch [⟨1, true, 33, 30, 0⟩] r.id)) := by
  refine withdraw_unbonded_spec 1 [⟨1, true, 33, 30, 0⟩] [⟨1, "alice", 33⟩]
    (by decide) ?_
  intro r hr
  have hr2 : r = ⟨1, "alice", 33⟩ := by simpa using hr
  subst hr2
  exact ⟨⟨1, true, 33, 30, 0⟩, rfl, rfl, by decide, by decide, by decide,
    by norm_num [U128]⟩

/-- C10: when a request consumes a batch's last shares
(`total_shares - shares = 0`), the batch record is deleted from the store
no matter what its remaining unclaimed amount is (the deletion tests only
`total_shares`), and the user's refund receives exactly the
floor-division amount — any residual unclaimed amount disappears with the
record instead of being added to the refund. -/
theorem withdraw_last_shares_deletes_batch (t : Nat) (store : List Batch)
    (total : Nat) (r : UnbondRequest) (b : Batch) :
    loadBatch store r.id = some b →
    b.reconciled = true →
    b.est_unbond_end_time < t →
    0 < b.total_shares →
    r.shares = b.total_shares →
    b.utoken_unclaimed < U128 →
    wLoop t [r] store total =
      some (total + b.utoken_unclaimed * r.shares / b.total_shares,
        removeBatch store r.id, []) := by
  intro hload hrec htime hpos hsh hu
  rw [wLoop_step t total store r [] b hload hrec htime hpos (le_of_eq hsh) hu]
  rw [if_pos (by omega)]
  rfl

/-- Witness for C10: a request for all 5 shares of a batch with 7
unclaimed deletes the batch and refunds `7 * 5 / 5 = 7`. -/
theorem withdraw_last_shares_deletes_batch_witness :
    wLoop 9 [⟨2, "bob", 5⟩] [⟨2, true, 5, 7, 3⟩] 0 =
      some (0 + 7 * 5 / 5, removeBatch [⟨2, true, 5, 7, 3⟩] 2, []) :=
  withdraw_last_shares_deletes_batch 9 [⟨2, true, 5, 7, 3⟩] 0 ⟨2, "bob", 5⟩
    ⟨2, true, 5, 7, 3⟩ rfl rfl (by decide) (by decide) (by decide)
    (by norm_num [U128])

/-- C9: a callback message fails with the authorization error whenever the
caller differs from the contract's own address, and dispatches to its
handler (proceeds) exactly when the caller is the contract itself. -/
theorem callback_auth_spec (contract_address sender : String) (msg : CallbackMsg) :
    (sender ≠ contract_address →
      callback contract_address sender msg =
        Except.error "callbacks can only be invoked by the contract itself") ∧
    (sender = contract_address →
      callback contract_address sender msg =
        Except.ok (match msg with
          | CallbackMsg.Reinvest => CallbackAction.runReinvest
          | CallbackMsg.Swap => CallbackAction.runSwap)) := by
  constructor
  · intro h
    have h2 : contract_address ≠ sender := fun hh => h hh.symm
    simp [callback, h2]
  · intro h
    subst h
    simp [callback]

/-- Witness for C9: an intruder's reinvest callback is rejected, and the
contract's own swap callback is dispatched. -/
theorem callback_auth_spec_witness :
    callback "hub" "intruder" CallbackMsg.Reinvest =
      Except.error "callbacks can only be invoked by the contract itself" ∧
    callback "hub" "hub" CallbackMsg.Swap = Except.ok CallbackAction.runSwap :=
  ⟨(callback_auth_spec "hub" "intruder" CallbackMsg.Reinvest).1 (by decide),
   (callback_auth_spec "hub" "hub" CallbackMsg.Swap).2 rfl⟩

theorem applyRedelegation_map (ds : List Delegation) (r : Redelegation) :
    applyRedelegation ds r =
      ds.map fun d => ⟨d.validator, stepAmount d.validator d.amount r⟩ := by
  unfold applyRedelegation
  apply List.map_congr_left
  intro d _
  cases d
  simp only [stepAmount]
  split_ifs <;> rfl

theorem applyRedelegations_eq (rs : List Redelegation) :
    ∀ ds, applyRedelegations ds rs =
      ds.map fun d => ⟨d.validator, foldAmount d.validator d.amount rs⟩ := by
  induction rs with
  | nil =>
    intro ds
    show ds = ds.map fun d => ⟨d.validator, d.amount⟩
    have he : (fun d : Delegation => (⟨d.validator, d.amount⟩ : Delegation)) = id :=
      funext fun d => by cases d; rfl
    rw [he, List.map_id]
  | cons r rest ih =>
    intro ds
    show applyRedelegations (applyRedelegation ds r) rest = _
    rw [ih, applyRedelegation_map, List.map_map]
    rfl

theorem sentFrom_cons (v : String) (r : Redelegation) (rest : List Redelegation) :
    sentFrom v (r :: rest) = (if r.src = v then r.amount else 0) + sentFrom v rest := rfl

theorem recvBy_cons (v : String) (r : Redelegation) (rest : List Redelegation) :
    recvBy v (r :: rest) = (if r.dst = v then r.amount else 0) + recvBy v rest := rfl

theorem valAmount_cons (v : String) (d : Delegation) (rest : List Delegation) :
    valAmount v (d :: rest) =
      (if d.validator = v then d.amount else 0) + valAmount v rest := rfl

theorem sentFrom_cons2 (v a b : String) (m : Nat) (rest : List Redelegation) :
    sentFrom v (⟨a, b, m⟩ :: rest) = (if a = v then m else 0) + sentFrom v rest := rfl

theorem recvBy_cons2 (v a b : String) (m : Nat) (rest : List Redelegation) :
    recvBy v (⟨a, b, m⟩ :: rest) = (if b = v then m else 0) + recvBy v rest := rfl

theorem valAmount_cons2 (v w : String) (m : Nat) (rest : List Delegation) :
    valAmount v (⟨w, m⟩ :: rest) = (if w = v then m else 0) + valAmount v rest := rfl

theorem foldAmount_noTouch (v : String) :
    ∀ (rs : List Redelegation) (a : Nat),
      (∀ r ∈ rs, r.src ≠ v ∧ r.dst ≠ v) → foldAmount v a rs = a := by
  intro rs
  induction rs with
  | nil => intro a _; rfl
  | cons r rest ih =>
    intro a h
    have hr := h r (by simp)
    show foldAmount v (stepAmount v a r) rest = a
    have hs : stepAmount v a r = a := by
      unfold stepAmount
      rw [if_neg (fun he => hr.1 he.symm), if_neg (fun he => hr.2 he.symm)]
    rw [hs]
    exact ih a fun r2 h2 => h r2 (List.mem_cons_of_mem r h2)

theorem foldAmount_recv (v : String) :
    ∀ (rs : List Redelegation) (a : Nat),
      (∀ r ∈ rs, r.src ≠ v) → foldAmount v a rs = a + recvBy v rs := by
  intro rs
  induction rs with
  | nil => intro a _; simp [foldAmount, recvBy]
  | cons r rest ih =>
    intro a h
    have h1 : r.src ≠ v := h r (by simp)
    show foldAmount v (stepAmount v a r) rest = a + recvBy v (r :: rest)
    rw [ih (stepAmount v a r) fun r2 h2 => h r2 (List.mem_cons_of_mem r h2)]
    show stepAmount v a r + recvBy v rest = a + recvBy v (r :: rest)
    rw [recvBy_cons]
    unfold stepAmount
    rw [if_neg (fun he => h1 he.symm)]
    by_cases hd : r.dst = v
    · rw [if_pos hd.symm, if_pos hd]
      omega
    · rw [if_neg (fun he => hd he.symm), if_neg hd]
      omega

theorem foldAmount_send (v : String) :
    ∀ (rs : List Redelegation) (a : Nat),
      (∀ r ∈ rs, r.dst ≠ v) → sentFrom v rs ≤ a →
      foldAmount v a rs = a - sentFrom v rs := by
  intro rs
  induction rs with
  | nil => intro a _ _; simp [foldAmount, sentFrom]
  | cons r rest ih =>
    intro a h hle
    have h1 : r.dst ≠ v := h r (by simp)
    show foldAmount v (stepAmount v a r) rest = a - sentFrom v (r :: rest)
    by_cases hs : r.src = v
    · have hstep : stepAmount v a r = a - r.amount := by
        unfold stepAmount
        rw [if_pos hs.symm]
      have hsent : sentFrom v (r :: rest) = r.amount + sentFrom v rest := by
        rw [sentFrom_cons, if_pos hs]
      rw [hsent] at hle
      rw [hstep, ih (a - r.amount) (fun r2 h2 => h r2 (List.mem_cons_of_mem r h2))
        (by omega), hsent]
      omega
    · have hstep : stepAmount v a r = a := by
        unfold stepAmount
        rw [if_neg (fun he => hs he.symm), if_neg (fun he => h1 he.symm)]
      have hsent : sentFrom v (r :: rest) = sentFrom v rest := by
        rw [sentFrom_cons, if_neg hs]
        omega
      rw [hstep, hsent]
      exact ih a (fun r2 h2 => h r2 (List.mem_cons_of_mem r h2)) (by omega)

theorem valAmount_le_sum (v : String) :
    ∀ l : List Delegation, valAmount v l ≤ sumAmounts l := by
  intro l
  induction l with
  | nil => simp [valAmount]
  | cons d rest ih =>
    simp only [valAmount, sumAmounts_cons]
    split
    · omega
    · omega

theorem valAmount_zero_of_not_mem (v : String) :
    ∀ l : List Delegation, v ∉ l.map (·.validator) → valAmount v l = 0 := by
  intro l
  induction l with
  | nil => intro _; rfl
  | cons d rest ih =>
    intro h
    simp only [valAmount]
    rw [if_neg (fun he => h (by simp [← he])), ih (fun hm => h (by simp [hm]))]

theorem valAmount_pos_of_mem (v : String) :
    ∀ l : List Delegation, (∀ x ∈ l, 0 < x.amount) →
      v ∈ l.map (·.validator) → 0 < valAmount v l := by
  intro l
  induction l with
  | nil => intro _ hm; simp at hm
  | cons d rest ih =>
    intro hp hm
    rw [valAmount_cons]
    rcases (by simpa using hm : v = d.validator ∨ ∃ x ∈ rest, x.validator = v) with
      he | ⟨x, hx, hxv⟩
    · rw [if_pos he.symm]
      have := hp d (by simp)
      omega
    · have hm2 : v ∈ rest.map (·.validator) := by
        simp
        exact ⟨x, hx, hxv⟩
      have := ih (fun y hy => hp y (List.mem_cons_of_mem d hy)) hm2
      omega

theorem greedy_mem (src dst : List Delegation) :
    ∀ r ∈ greedy src dst,
      r.src ∈ src.map (·.validator) ∧ r.dst ∈ dst.map (·.validator) := by
  induction src, dst using greedy.induct with
  | case1 dst =>
    intro r hr
    simp [greedy] at hr
  | case2 s ss =>
    intro r hr
    simp [greedy] at hr
  | case3 s ss d ds ih =>
    intro r hr
    simp only [greedy] at hr
    rcases List.mem_cons.mp hr with he | hm
    · subst he
      exact ⟨by simp, by simp⟩
    · obtain ⟨h1, h2⟩ := ih r hm
      constructor
      · revert h1
        split
        · intro h1
          exact List.mem_cons_of_mem _ h1
        · intro h1
          exact h1
      · revert h2
        split
        · intro h2
          exact List.mem_cons_of_mem _ h2
        · intro h2
          exact h2

theorem greedy_flows (v : String) :
    ∀ (src dst : List Delegation), sumAmounts src = sumAmounts dst →
      sentFrom v (greedy src dst) = valAmount v src ∧
      recvBy v (greedy src dst) = valAmount v dst := by
  intro src dst
  induction src, dst using greedy.induct with
  | case1 dst =>
    intro hsum
    have h0 : sumAmounts dst = 0 := by
      simpa using hsum.symm
    have hz : valAmount v dst = 0 := by
      have := valAmount_le_sum v dst
      omega
    constructor
    · simp [greedy, sentFrom, valAmount]
    · simp [greedy, recvBy, hz]
  | case2 s ss =>
    intro hsum
    have h0 : sumAmounts (s :: ss) = 0 := by
      simpa using hsum
    have hz : valAmount v (s :: ss) = 0 := by
      have := valAmount_le_sum v (s :: ss)
      omega
    constructor
    · simp [greedy, sentFrom, hz]
    · simp [greedy, recvBy, valAmount]
  | case3 s ss d ds ih =>
    intro hsum
    simp only [dite_eq_ite] at ih
    have hm1 : min s.amount d.amount ≤ s.amount := Nat.min_le_left _ _
    have hm2 : min s.amount d.amount ≤ d.amount := Nat.min_le_right _ _
    have e1 : sumAmounts (if s.amount = min s.amount d.amount then ss
        else ⟨s.validator, s.amount - min s.amount d.amount⟩ :: ss) =
        sumAmounts (s :: ss) - min s.amount d.amount := by
      split
      · rw [sumAmounts_cons]
        omega
      · rw [sumAmounts_cons, sumAmounts_cons]
        show s.amount - min s.amount d.amount + sumAmounts ss =
          s.amount + sumAmounts ss - min s.amount d.amount
        omega
    have e2 : sumAmounts (if d.amount = min s.amount d.amount then ds
        else ⟨d.validator, d.amount - min s.amount d.amount⟩ :: ds) =
        sumAmounts (d :: ds) - min s.amount d.amount := by
      split
      · rw [sumAmounts_cons]
        omega
      · rw [sumAmounts_cons, sumAmounts_cons]
        show d.amount - min s.amount d.amount + sumAmounts ds =
          d.amount + sumAmounts ds - min s.amount d.amount
        omega
    obtain ⟨ihs, ihr⟩ := ih (by rw [e1, e2, hsum])
    constructor
    · simp only [greedy, dite_eq_ite]
      rw [sentFrom_cons2, ihs, valAmount_cons]
      by_cases hc : s.amount = min s.amount d.amount
      · rw [if_pos hc]
        by_cases hv : s.validator = v
        · rw [if_pos hv, if_pos hv]
          omega
        · rw [if_neg hv, if_neg hv]
      · rw [if_neg hc, valAmount_cons2]
        by_cases hv : s.validator = v
        · rw [if_pos hv, if_pos hv, if_pos hv]
          omega
        · rw [if_neg hv, if_neg hv, if_neg hv]
          omega
    · simp only [greedy, dite_eq_ite]
      rw [recvBy_cons2, ihr, valAmount_cons]
      by_cases hc : d.amount = min s.amount d.amount
      · rw [if_pos hc]
        by_cases hv : d.validator = v
        · rw [if_pos hv, if_pos hv]
          omega
        · rw [if_neg hv, if_neg hv]
      · rw [if_neg hc, valAmount_cons2]
        by_cases hv : d.validator = v
        · rw [if_pos hv, if_pos hv, if_pos hv]
          omega
        · rw [if_neg hv, if_neg hv, if_neg hv]
          omega

theorem buildSrcDst_sum (per rem : Nat) :
    ∀ (l : List Delegation) (i : Nat),
      sumAmounts l + sumAmounts (buildSrcDst per rem i l).2 =
        keepSum per rem i l + sumAmounts (buildSrcDst per rem i l).1 := by
  intro l
  induction l with
  | nil =>
    intro i
    simp [buildSrcDst, keepSum]
  | cons d rest ih =>
    intro i
    have := ih (i + 1)
    simp only [buildSrcDst, keepSum, sumAmounts_cons]
    split
    · simp only [sumAmounts_cons]
      omega
    · split
      · simp only [sumAmounts_cons]
        omega
      · omega

theorem buildSrcDst_pos (per rem : Nat) :
    ∀ (l : List Delegation) (i : Nat),
      (∀ x ∈ (buildSrcDst per rem i l).1, 0 < x.amount) ∧
      (∀ x ∈ (buildSrcDst per rem i l).2, 0 < x.amount) := by
  intro l
  induction l with
  | nil =>
    intro i
    exact ⟨fun x hx => absurd hx (by simp [buildSrcDst]),
      fun x hx => absurd hx (by simp [buildSrcDst])⟩
  | cons d rest ih =>
    intro i
    obtain ⟨ih1, ih2⟩ := ih (i + 1)
    simp only [buildSrcDst]
    split
    · refine ⟨?_, ih2⟩
      intro x hx
      rcases List.mem_cons.mp hx with he | hm
      · subst he
        simp only []
        omega
      · exact ih1 x hm
    · split
      · refine ⟨ih1, ?_⟩
        intro x hx
        rcases List.mem_cons.mp hx with he | hm
        · subst he
          simp only []
          omega
        · exact ih2 x hm
      · exact ⟨ih1, ih2⟩

theorem buildSrcDst_vals (per rem : Nat) :
    ∀ (l : List Delegation) (i : Nat) (v : String),
      (v ∈ (buildSrcDst per rem i l).1.map (·.validator) →
        v ∈ l.map (·.validator)) ∧
      (v ∈ (buildSrcDst per rem i l).2.map (·.validator) →
        v ∈ l.map (·.validator)) := by
  intro l
  induction l with
  | nil =>
    intro i v
    exact ⟨fun h => absurd h (by simp [buildSrcDst]),
      fun h => absurd h (by simp [buildSrcDst])⟩
  | cons d rest ih =>
    intro i v
    obtain ⟨ih1, ih2⟩ := ih (i + 1) v
    simp only [buildSrcDst]
    split
    · constructor
      · intro h
        rcases (by simpa using h : v = d.validator ∨
            v ∈ (buildSrcDst per rem (i + 1) rest).1.map (·.validator)) with he | hm
        · simp [he]
        · exact List.mem_cons_of_mem _ (ih1 hm)
      · intro h
        exact List.mem_cons_of_mem _ (ih2 h)
    · split
      · constructor
        · intro h
          exact List.mem_cons_of_mem _ (ih1 h)
        · intro h
          rcases (by simpa using h : v = d.validator ∨
              v ∈ (buildSrcDst per rem (i + 1) rest).2.map (·.validator)) with he | hm
          · simp [he]
          · exact List.mem_cons_of_mem _ (ih2 hm)
      · exact ⟨fun h => List.mem_cons_of_mem _ (ih1 h),
          fun h => List.mem_cons_of_mem _ (ih2 h)⟩

theorem buildSrcDst_valAmount (per rem : Nat) :
    ∀ (l : List Delegation) (i : Nat),
      (l.map (·.validator)).Nodup →
      ∀ j (h : j < l.length),
        valAmount (l.get ⟨j, h⟩).validator (buildSrcDst per rem i l).1 =
          (l.get ⟨j, h⟩).amount - evenShare per rem (i + j) ∧
        valAmount (l.get ⟨j, h⟩).validator (buildSrcDst per rem i l).2 =
          evenShare per rem (i + j) - (l.get ⟨j, h⟩).amount := by
  intro l
  induction l with
  | nil =>
    intro i _ j h
    simp at h
  | cons d rest ih =>
    intro i hnd j h
    have hnd2 : (rest.map (·.validator)).Nodup := (List.nodup_cons.mp hnd).2
    have hdn : d.validator ∉ rest.map (·.validator) := (List.nodup_cons.mp hnd).1
    cases j with
    | zero =>
      have hnotin1 : d.validator ∉
          (buildSrcDst per rem (i + 1) rest).1.map (·.validator) :=
        fun hm => hdn ((buildSrcDst_vals per rem rest (i + 1) d.validator).1 hm)
      have hnotin2 : d.validator ∉
          (buildSrcDst per rem (i + 1) rest).2.map (·.validator) :=
        fun hm => hdn ((buildSrcDst_vals per rem rest (i + 1) d.validator).2 hm)
      have hz1 := valAmount_zero_of_not_mem d.validator _ hnotin1
      have hz2 := valAmount_zero_of_not_mem d.validator _ hnotin2
      simp only [buildSrcDst, List.get, Nat.add_zero]
      split
      · constructor
        · rw [valAmount_cons2, if_pos rfl, hz1]
          omega
        · rw [hz2]
          omega
      · split
        · constructor
          · rw [hz1]
            omega
          · rw [valAmount_cons2, if_pos rfl, hz2]
            omega
        · constructor
          · rw [hz1]
            omega
          · rw [hz2]
            omega
    | succ j =>
      have hr : j < rest.length := Nat.lt_of_succ_lt_succ (by simpa using h)
      have hprev := ih (i + 1) hnd2 j hr
      have hne : (rest.get ⟨j, hr⟩).validator ≠ d.validator := by
        intro he
        exact hdn (he ▸ List.mem_map_of_mem _ (rest.get_mem j hr))
      have hidx : i + (j + 1) = i + 1 + j := by omega
      simp only [buildSrcDst, List.get_cons_succ, hidx]
      split
      · constructor
        · rw [valAmount_cons2, if_neg (fun he => hne he.symm), Nat.zero_add]
          exact hprev.1
        · exact hprev.2
      · split
        · constructor
          · exact hprev.1
          · rw [valAmount_cons2, if_neg (fun he => hne he.symm), Nat.zero_add]
            exact hprev.2
        · exact hprev

theorem targetsFrom_length (per rem : Nat) :
    ∀ (l : List Delegation) (i : Nat), (targetsFrom per rem i l).length = l.length := by
  intro l
  induction l with
  | nil => intro i; rfl
  | cons d rest ih =>
    intro i
    simp [targetsFrom, ih (i + 1)]

theorem targetsFrom_get (per rem : Nat) :
    ∀ (l : List Delegation) (i j : Nat) (h : j < l.length)
      (h2 : j < (targetsFrom per rem i l).length),
      (targetsFrom per rem i l).get ⟨j, h2⟩ =
        ⟨(l.get ⟨j, h⟩).validator, evenShare per rem (i + j)⟩ := by
  intro l
  induction l with
  | nil =>
    intro i j h
    simp at h
  | cons d rest ih =>
    intro i j h h2
    cases j with
    | zero => simp [targetsFrom]
    | succ j =>
      have hr : j < rest.length := Nat.lt_of_succ_lt_succ (by simpa using h)
      have hidx : i + (j + 1) = i + 1 + j := by omega
      have h2r : j < (targetsFrom per rem (i + 1) rest).length := by
        rw [targetsFrom_length]
        exact hr
      show (targetsFrom per rem (i + 1) rest).get ⟨j, h2r⟩ = _
      rw [ih (i + 1) j hr h2r, hidx]
      exact rfl

/-- C6: for every delegation snapshot (distinct validators, non-empty so
the source's division does not panic), applying every redelegation
produced by `compute_redelegations_for_rebalancing` leaves each validator
exactly at its even target — `total / n`, with one extra unit for the
first `total % n` validators in list order; and on `{A:150, B:50, C:100}`
the output is the single redelegation `A → B : 50`. -/
theorem rebalance_spec :
    (∀ ds : List Delegation, (ds.map (·.validator)).Nodup → ds ≠ [] →
      ∃ rs, compute_redelegations_for_rebalancing ds = some rs ∧
        applyRedelegations ds rs = targetList ds) ∧
    compute_redelegations_for_rebalancing [⟨"A", 150⟩, ⟨"B", 50⟩, ⟨"C", 100⟩] =
      some [⟨"A", "B", 50⟩] := by
  constructor
  · intro ds hnd hne
    have hlen : ds.length ≠ 0 := by
      simpa [List.length_eq_zero] using hne
    refine ⟨greedy
        (buildSrcDst (sumAmounts ds / ds.length) (sumAmounts ds % ds.length) 0 ds).1
        (buildSrcDst (sumAmounts ds / ds.length) (sumAmounts ds % ds.length) 0 ds).2,
      ?_, ?_⟩
    · simp [compute_redelegations_for_rebalancing, hlen]
    · set per := sumAmounts ds / ds.length with hper
      set rem := sumAmounts ds % ds.length with hrem0
      set S := (buildSrcDst per rem 0 ds).1 with hS
      set D := (buildSrcDst per rem 0 ds).2 with hD
      set rs := greedy S D with hrs
      have hrem : rem < ds.length := Nat.mod_lt _ (Nat.pos_of_ne_zero hlen)
      have hk : keepSum per rem 0 ds = sumAmounts ds := by
        rw [keepSum_eval, Nat.zero_add, Nat.min_zero, Nat.sub_zero,
          Nat.min_eq_left (Nat.le_of_lt hrem)]
        have hdm := Nat.div_add_mod (sumAmounts ds) ds.length
        rw [Nat.mul_comm] at hdm
        rw [hper, hrem0]
        exact hdm
      have hbs := buildSrcDst_sum per rem ds 0
      rw [← hS, ← hD] at hbs
      have hsum : sumAmounts S = sumAmounts D := by
        omega
      rw [applyRedelegations_eq]
      apply List.ext_get
      · rw [List.length_map]
        show ds.length = (targetList ds).length
        simp only [targetList, ← hper, ← hrem0]
        rw [targetsFrom_length]
      · intro j h1 h2
        have hj : j < ds.length := by
          simpa using h1
        have ht2 : j < (targetsFrom per rem 0 ds).length := by
          rw [targetsFrom_length]
          exact hj
        rw [List.get_map]
        simp only [targetList, ← hper, ← hrem0]
        rw [targetsFrom_get per rem ds 0 j hj ht2, Nat.zero_add]
        show (⟨(ds.get ⟨j, hj⟩).validator,
          foldAmount (ds.get ⟨j, hj⟩).validator (ds.get ⟨j, hj⟩).amount rs⟩ :
            Delegation) = ⟨(ds.get ⟨j, hj⟩).validator, evenShare per rem j⟩
        obtain ⟨hva1, hva2⟩ := buildSrcDst_valAmount per rem ds 0 hnd j hj
        rw [← hS] at hva1
        rw [← hD] at hva2
        rw [Nat.zero_add] at hva1 hva2
        obtain ⟨hsent, hrecv⟩ := greedy_flows (ds.get ⟨j, hj⟩).validator S D hsum
        have hposS := (buildSrcDst_pos per rem ds 0).1
        have hposD := (buildSrcDst_pos per rem ds 0).2
        rw [← hS] at hposS
        rw [← hD] at hposD
        have key : foldAmount (ds.get ⟨j, hj⟩).validator (ds.get ⟨j, hj⟩).amount rs =
            evenShare per rem j := by
          rcases Nat.lt_trichotomy (ds.get ⟨j, hj⟩).amount (evenShare per rem j) with
            hlt | heq | hgt
          · have hnotS : (ds.get ⟨j, hj⟩).validator ∉ S.map (·.validator) := by
              intro hm
              have := valAmount_pos_of_mem _ S hposS hm
              omega
            have hnos : ∀ r2 ∈ rs, r2.src ≠ (ds.get ⟨j, hj⟩).validator :=
              fun r2 hr2 he => hnotS (he ▸ (greedy_mem S D r2 hr2).1)
            rw [foldAmount_recv _ rs _ hnos, hrecv, hva2]
            omega
          · have hnotS : (ds.get ⟨j, hj⟩).validator ∉ S.map (·.validator) := by
              intro hm
              have := valAmount_pos_of_mem _ S hposS hm
              omega
            have hnotD : (ds.get ⟨j, hj⟩).validator ∉ D.map (·.validator) := by
              intro hm
              have := valAmount_pos_of_mem _ D hposD hm
              omega
            rw [foldAmount_noTouch _ rs _ (fun r2 hr2 =>
              ⟨fun he => hnotS (by rw [← he]; exact (greedy_mem S D r2 hr2).1),
               fun he => hnotD (by rw [← he]; exact (greedy_mem S D r2 hr2).2)⟩)]
            exact heq
          · have hnotD : (ds.get ⟨j, hj⟩).validator ∉ D.map (·.validator) := by
              intro hm
              have := valAmount_pos_of_mem _ D hposD hm
              omega
            have hnod : ∀ r2 ∈ rs, r2.dst ≠ (ds.get ⟨j, hj⟩).validator :=
              fun r2 hr2 he => hnotD (he ▸ (greedy_mem S D r2 hr2).2)
            rw [foldAmount_send _ rs _ hnod (by rw [hsent, hva1]; omega), hsent, hva1]
            omega
        rw [key]
  · have hg : greedy [(⟨"A", 50⟩ : Delegation)] [(⟨"B", 50⟩ : Delegation)] =
        [⟨"A", "B", 50⟩] := by
      simp [greedy]
    have h1 : compute_redelegations_for_rebalancing
        [⟨"A", 150⟩, ⟨"B", 50⟩, ⟨"C", 100⟩] =
        some (greedy [(⟨"A", 50⟩ : Delegation)] [(⟨"B", 50⟩ : Delegation)]) := rfl
    rw [h1, hg]

/-- Witness for C6: the theorem applied to the spec example snapshot. -/
theorem rebalance_spec_witness :
    ∃ rs, compute_redelegations_for_rebalancing
        [⟨"A", 150⟩, ⟨"B", 50⟩, ⟨"C", 100⟩] = some rs ∧
      applyRedelegations [⟨"A", 150⟩, ⟨"B", 50⟩, ⟨"C", 100⟩] rs =
        targetList [⟨"A", 150⟩, ⟨"B", 50⟩, ⟨"C", 100⟩] :=
  rebalance_spec.1 [⟨"A", 150⟩, ⟨"B", 50⟩, ⟨"C", 100⟩] (by decide) (by decide)

end ErisHub
